import Mathlib

/-!
Verification of the ScholarBoard-ai front end (src/website/js/script.js and the
variant script in src/unnamed/part_001) against its natural-language spec.

JS strings are modelled as `List Char`, JS numbers as `ℚ` (exact arithmetic;
the scripts only add, subtract, multiply, divide and compare), and JS arrays
as `List`.  Fallible flows are modelled with `Except`/`Option`.
-/

namespace ScholarBoard

/-! ### Levenshtein distance (part_001, function `levenshteinDistance`)

The JS function builds the classical dynamic-programming matrix over the two
strings and returns `matrix[b.length][a.length]`.  `fillRow` is the inner
`j`-loop: it walks the characters of `a` together with a sliding window
`d0 :: d1 :: _` on the previous row (`d0 = matrix[i-1][j-1]`,
`d1 = matrix[i-1][j]`) while `left` is the entry `matrix[i][j-1]` computed
just before. -/
def fillRow (y : Char) : List Char → List Nat → Nat → List Nat
  | [], _, _ => []
  | _ :: _, [], _ => []
  | _ :: _, [_], _ => []
  | x :: xs, d0 :: d1 :: rest, left =>
    let v := if y = x then d0 else min (d0 + 1) (min (left + 1) (d1 + 1))
    v :: fillRow y xs (d1 :: rest) v

/-- One iteration of the outer `i`-loop of the JS matrix fill: given the
previous row and its index, produce the next row `i :: fillRow …` (the JS
code seeds each row `i` with `matrix[i] = [i]`). -/
def stepRow (a : List Char) (st : List Nat × Nat) (y : Char) : List Nat × Nat :=
  let i := st.2 + 1
  (i :: fillRow y a st.1 i, i)

/-- `levenshteinDistance` from part_001 (both copies are identical): row `0`
is `[0, 1, …, a.length]` (`matrix[0][j] = j`), each later row is produced by
`stepRow`, and the result is `matrix[b.length][a.length]`, i.e. the entry at
index `a.length` of the final row. -/
def levenshteinDistance (a b : List Char) : Nat :=
  ((b.foldl (stepRow a) (List.range (a.length + 1), 0)).1).getD a.length 0

/-- Reference recursion for the Levenshtein distance, used to relate the
JS matrix to the minimal-edit-script characterisation. -/
def lev : List Char → List Char → Nat
  | [], ys => ys.length
  | _ :: xs, [] => xs.length + 1
  | x :: xs, y :: ys =>
    if x = y then lev xs ys
    else 1 + min (lev xs (y :: ys)) (min (lev (x :: xs) ys) (lev xs ys))
termination_by a b => a.length + b.length

theorem lev_nil_left (ys : List Char) : lev [] ys = ys.length := by
  simp [lev]

theorem lev_nil_right (xs : List Char) : lev xs [] = xs.length := by
  cases xs <;> simp [lev]

theorem lev_cons_cons (x y : Char) (xs ys : List Char) :
    lev (x :: xs) (y :: ys) =
      if x = y then lev xs ys
      else 1 + min (lev xs (y :: ys)) (min (lev (x :: xs) ys) (lev xs ys)) := by
  simp [lev]

theorem lev_self (a : List Char) : lev a a = 0 := by
  induction a with
  | nil => simp [lev]
  | cons x xs ih => simp [lev_cons_cons, ih]

theorem lev_eq_zero_iff (a b : List Char) : lev a b = 0 ↔ a = b := by
  induction a generalizing b with
  | nil =>
    cases b <;> simp [lev]
  | cons x xs ih =>
    cases b with
    | nil => simp [lev]
    | cons y ys =>
      rw [lev_cons_cons]
      by_cases h : x = y
      · subst h
        simp [ih]
      · simp [h]

theorem lev_symm (a b : List Char) : lev a b = lev b a := by
  induction a generalizing b with
  | nil => simp [lev_nil_left, lev_nil_right]
  | cons x xs ih =>
    induction b with
    | nil => simp [lev_nil_left, lev_nil_right]
    | cons y ys ihb =>
      rw [lev_cons_cons, lev_cons_cons]
      by_cases h : x = y
      · subst h
        simp [ih]
      · have hyx : ¬ y = x := fun hc => h hc.symm
        rw [if_neg h, if_neg hyx, ih (y :: ys), ihb, ih ys]
        omega

/-! #### Edit scripts

`EditStep a b` holds when `b` is obtained from `a` by one single-character
insertion, deletion, or substitution; `ReachIn n a b` when `b` is obtained
from `a` by exactly `n` such steps.  The textbook Levenshtein distance of the
spec is the least such `n`. -/

/-- One single-character edit: insertion, deletion, or substitution. -/
inductive EditStep : List Char → List Char → Prop
  | insert (p s : List Char) (x : Char) : EditStep (p ++ s) (p ++ x :: s)
  | delete (p s : List Char) (x : Char) : EditStep (p ++ x :: s) (p ++ s)
  | subst (p s : List Char) (x y : Char) : EditStep (p ++ x :: s) (p ++ y :: s)

/-- `ReachIn n a b`: `a` can be transformed into `b` by exactly `n` edits. -/
inductive ReachIn : Nat → List Char → List Char → Prop
  | refl (a : List Char) : ReachIn 0 a a
  | step {a c b : List Char} {n : Nat} :
      EditStep a c → ReachIn n c b → ReachIn (n + 1) a b

theorem editStep_cons {u v : List Char} (c : Char) (h : EditStep u v) :
    EditStep (c :: u) (c :: v) := by
  cases h with
  | insert p s x => exact EditStep.insert (c :: p) s x
  | delete p s x => exact EditStep.delete (c :: p) s x
  | subst p s x y => exact EditStep.subst (c :: p) s x y

theorem reachIn_cons {n : Nat} {u v : List Char} (c : Char) (h : ReachIn n u v) :
    ReachIn n (c :: u) (c :: v) := by
  induction h with
  | refl a => exact ReachIn.refl (c :: a)
  | step hs _ ih => exact ReachIn.step (editStep_cons c hs) ih

theorem reachIn_nil_left (v : List Char) : ReachIn v.length [] v := by
  induction v with
  | nil => exact ReachIn.refl []
  | cons x xs ih =>
    exact ReachIn.step (EditStep.insert [] [] x) (reachIn_cons x ih)

theorem reachIn_nil_right (u : List Char) : ReachIn u.length u [] := by
  induction u with
  | nil => exact ReachIn.refl []
  | cons x xs ih =>
    exact ReachIn.step (EditStep.delete [] xs x) ih

/-- The reference recursion is attained by an explicit edit script. -/
theorem reachIn_lev : ∀ a b : List Char, ReachIn (lev a b) a b := by
  intro a
  induction a with
  | nil =>
    intro b
    rw [lev_nil_left]
    exact reachIn_nil_left b
  | cons x xs ih =>
    intro b
    induction b with
    | nil =>
      rw [lev_nil_right]
      exact reachIn_nil_right (x :: xs)
    | cons y ys ihb =>
      rw [lev_cons_cons]
      by_cases h : x = y
      · subst h
        rw [if_pos rfl]
        exact reachIn_cons x (ih ys)
      · rw [if_neg h]
        have h3 : min (lev xs (y :: ys)) (min (lev (x :: xs) ys) (lev xs ys)) =
              lev xs (y :: ys) ∨
            min (lev xs (y :: ys)) (min (lev (x :: xs) ys) (lev xs ys)) =
              lev (x :: xs) ys ∨
            min (lev xs (y :: ys)) (min (lev (x :: xs) ys) (lev xs ys)) =
              lev xs ys := by omega
        rcases h3 with h3 | h3 | h3 <;> rw [h3, Nat.add_comm]
        · exact ReachIn.step (EditStep.delete [] xs x) (ih (y :: ys))
        · exact ReachIn.step (EditStep.insert [] (x :: xs) y) (reachIn_cons y ihb)
        · exact ReachIn.step (EditStep.subst [] xs x y) (reachIn_cons y (ih ys))

/-- Joint one-step bounds, by strong induction on the total length:
prepending a character to the first string changes the reference distance
by at most one in either direction. -/
theorem lev_cons_aux :
    ∀ (n : Nat) (s b : List Char), s.length + b.length ≤ n →
      ∀ x : Char, lev (x :: s) b ≤ 1 + lev s b ∧ lev s b ≤ 1 + lev (x :: s) b := by
  intro n
  induction n with
  | zero =>
    intro s b hlen x
    cases s with
    | nil =>
      cases b with
      | nil => simp [lev_nil_right, lev_nil_left]
      | cons y b1 => simp at hlen
    | cons z s1 => simp at hlen
  | succ n ih =>
    intro s b hlen x
    constructor
    · cases b with
      | nil =>
        rw [lev_nil_right, lev_nil_right]
        simp only [List.length_cons]
        omega
      | cons y b1 =>
        rw [lev_cons_cons]
        by_cases hxy : x = y
        · subst hxy
          rw [if_pos rfl]
          have e1 : lev s b1 = lev b1 s := lev_symm s b1
          have e2 : lev s (x :: b1) = lev (x :: b1) s := lev_symm s (x :: b1)
          have h2 := (ih b1 s (by simp at hlen ⊢; omega) x).2
          omega
        · rw [if_neg hxy]
          have h1 : min (lev s (y :: b1)) (min (lev (x :: s) b1) (lev s b1)) ≤
              lev s (y :: b1) := min_le_left _ _
          omega
    · cases b with
      | nil =>
        rw [lev_nil_right, lev_nil_right]
        simp only [List.length_cons]
        omega
      | cons y b1 =>
        rw [lev_cons_cons]
        by_cases hxy : x = y
        · subst hxy
          rw [if_pos rfl]
          have e1 : lev s b1 = lev b1 s := lev_symm s b1
          have e2 : lev s (x :: b1) = lev (x :: b1) s := lev_symm s (x :: b1)
          have h1 := (ih b1 s (by simp at hlen ⊢; omega) x).1
          omega
        · rw [if_neg hxy]
          have e1 : lev s b1 = lev b1 s := lev_symm s b1
          have e2 : lev s (y :: b1) = lev (y :: b1) s := lev_symm s (y :: b1)
          have f1 := (ih b1 s (by simp at hlen ⊢; omega) y).1
          have f2 := (ih s b1 (by simp at hlen ⊢; omega) x).2
          omega

theorem lev_le_cons_left (s b : List Char) (x : Char) :
    lev (x :: s) b ≤ 1 + lev s b :=
  (lev_cons_aux (s.length + b.length) s b le_rfl x).1

theorem lev_cons_left_le (s b : List Char) (x : Char) :
    lev s b ≤ 1 + lev (x :: s) b :=
  (lev_cons_aux (s.length + b.length) s b le_rfl x).2

/-- Substituting the head character changes the reference distance by at
most one. -/
theorem lev_subst_head (x y : Char) (s : List Char) :
    ∀ b : List Char, lev (x :: s) b ≤ 1 + lev (y :: s) b := by
  intro b
  induction b with
  | nil =>
    rw [lev_nil_right, lev_nil_right]
    simp only [List.length_cons]
    omega
  | cons z b1 ih =>
    rw [lev_cons_cons, lev_cons_cons]
    by_cases hxz : x = z <;> by_cases hyz : y = z
    · rw [if_pos hxz, if_pos hyz]
      omega
    · rw [if_pos hxz, if_neg hyz]
      have e1 : lev s b1 = lev b1 s := lev_symm s b1
      have e2 : lev s (z :: b1) = lev (z :: b1) s := lev_symm s (z :: b1)
      have f1 := lev_cons_left_le b1 s z
      have f2 := lev_cons_left_le s b1 y
      omega
    · rw [if_neg hxz, if_pos hyz]
      have h1 : min (lev s (z :: b1)) (min (lev (x :: s) b1) (lev s b1)) ≤
          lev s b1 :=
        le_trans (min_le_right _ _) (min_le_right _ _)
      omega
    · rw [if_neg hxz, if_neg hyz]
      omega

/-- Lifting a one-step bound over a common prefix. -/
theorem lev_append_le {u v : List Char}
    (H : ∀ b : List Char, lev u b ≤ 1 + lev v b) :
    ∀ (p b : List Char), lev (p ++ u) b ≤ 1 + lev (p ++ v) b := by
  intro p
  induction p with
  | nil =>
    intro b
    simpa using H b
  | cons z p1 ihp =>
    intro b
    induction b with
    | nil =>
      have h0 := H []
      rw [lev_nil_right, lev_nil_right] at h0
      rw [lev_nil_right, lev_nil_right]
      simp only [List.length_append, List.length_cons]
      omega
    | cons w b1 ihb =>
      simp only [List.cons_append] at ihb ⊢
      rw [lev_cons_cons, lev_cons_cons]
      by_cases hzw : z = w
      · rw [if_pos hzw, if_pos hzw]
        have := ihp b1
        omega
      · rw [if_neg hzw, if_neg hzw]
        have hA := ihp (w :: b1)
        have hC := ihp b1
        omega

/-- A single edit changes the reference distance to any third string by at
most one. -/
theorem editStep_lev_le {a c : List Char} (h : EditStep a c) (b : List Char) :
    lev a b ≤ 1 + lev c b := by
  cases h with
  | insert p s x => exact lev_append_le (fun b0 => lev_cons_left_le s b0 x) p b
  | delete p s x => exact lev_append_le (fun b0 => lev_le_cons_left s b0 x) p b
  | subst p s x y => exact lev_append_le (fun b0 => lev_subst_head x y s b0) p b

/-- The reference recursion is a lower bound for every edit script. -/
theorem lev_le_of_reachIn : ∀ {n : Nat} {a b : List Char},
    ReachIn n a b → lev a b ≤ n := by
  intro n a b h
  induction h with
  | refl a => rw [lev_self]
  | step hs _ ih =>
    exact le_trans (editStep_lev_le hs _) (by omega)

theorem editStep_reverse {u v : List Char} (h : EditStep u v) :
    EditStep u.reverse v.reverse := by
  cases h with
  | insert p s x =>
    have h1 : (p ++ s).reverse = s.reverse ++ p.reverse := by simp
    have h2 : (p ++ x :: s).reverse = s.reverse ++ x :: p.reverse := by simp
    rw [h1, h2]
    exact EditStep.insert s.reverse p.reverse x
  | delete p s x =>
    have h1 : (p ++ s).reverse = s.reverse ++ p.reverse := by simp
    have h2 : (p ++ x :: s).reverse = s.reverse ++ x :: p.reverse := by simp
    rw [h1, h2]
    exact EditStep.delete s.reverse p.reverse x
  | subst p s x y =>
    have h1 : (p ++ x :: s).reverse = s.reverse ++ x :: p.reverse := by simp
    have h2 : (p ++ y :: s).reverse = s.reverse ++ y :: p.reverse := by simp
    rw [h1, h2]
    exact EditStep.subst s.reverse p.reverse x y

theorem reachIn_reverse {n : Nat} {u v : List Char} (h : ReachIn n u v) :
    ReachIn n u.reverse v.reverse := by
  induction h with
  | refl a => exact ReachIn.refl a.reverse
  | step hs _ ih => exact ReachIn.step (editStep_reverse hs) ih

theorem lev_reverse (u v : List Char) : lev u.reverse v.reverse = lev u v := by
  apply le_antisymm
  · exact lev_le_of_reachIn (reachIn_reverse (reachIn_lev u v))
  · have h2 := reachIn_reverse (reachIn_lev u.reverse v.reverse)
    simp only [List.reverse_reverse] at h2
    exact lev_le_of_reachIn h2

/-- The reference recursion also satisfies the recursion on final
characters, which is the shape the JS matrix fill uses. -/
theorem lev_snoc_snoc (u v : List Char) (x y : Char) :
    lev (u ++ [x]) (v ++ [y]) =
      if x = y then lev u v
      else 1 + min (lev u (v ++ [y])) (min (lev (u ++ [x]) v) (lev u v)) := by
  have h1 := (lev_reverse (u ++ [x]) (v ++ [y])).symm
  simp only [List.reverse_append, List.reverse_cons, List.reverse_nil,
    List.nil_append, List.singleton_append] at h1
  rw [h1, lev_cons_cons]
  have e1 : lev u.reverse v.reverse = lev u v := lev_reverse u v
  have e2 : lev u.reverse (y :: v.reverse) = lev u (v ++ [y]) := by
    have h2 := lev_reverse u (v ++ [y])
    simp only [List.reverse_append, List.reverse_cons, List.reverse_nil,
      List.nil_append, List.singleton_append] at h2
    exact h2
  have e3 : lev (x :: u.reverse) v.reverse = lev (u ++ [x]) v := by
    have h3 := lev_reverse (u ++ [x]) v
    simp only [List.reverse_append, List.reverse_cons, List.reverse_nil,
      List.nil_append, List.singleton_append] at h3
    exact h3
  rw [e1, e2, e3]

/-! #### The JS matrix computes the reference recursion -/

/-- Specification of a matrix row: the distances from every prefix of
`p ++ u` extending `p` to the string `v`. -/
def suffixRow (p u v : List Char) : List Nat :=
  match u with
  | [] => [lev p v]
  | x :: xs => lev p v :: suffixRow (p ++ [x]) xs v

/-- `suffixRow` without its first entry. -/
def tailRow (p u v : List Char) : List Nat :=
  match u with
  | [] => []
  | x :: xs => lev (p ++ [x]) v :: tailRow (p ++ [x]) xs v

theorem suffixRow_eq_cons (p u v : List Char) :
    suffixRow p u v = lev p v :: tailRow p u v := by
  induction u generalizing p with
  | nil => rfl
  | cons x xs ih => rw [suffixRow, tailRow, ih]

/-- The inner loop of the JS matrix fill turns the row for `v` into the row
for `v ++ [y]`. -/
theorem fillRow_spec (y : Char) :
    ∀ (u p v : List Char),
      fillRow y u (suffixRow p u v) (lev p (v ++ [y])) = tailRow p u (v ++ [y]) := by
  intro u
  induction u with
  | nil =>
    intro p v
    rfl
  | cons x xs ih =>
    intro p v
    rw [suffixRow, suffixRow_eq_cons, fillRow, tailRow]
    have hv : (if y = x then lev p v
        else min (lev p v + 1) (min (lev p (v ++ [y]) + 1) (lev (p ++ [x]) v + 1))) =
        lev (p ++ [x]) (v ++ [y]) := by
      rw [lev_snoc_snoc]
      by_cases hxy : x = y
      · rw [if_pos hxy, if_pos hxy.symm]
      · have hyx : ¬ y = x := fun hc => hxy hc.symm
        rw [if_neg hxy, if_neg hyx]
        omega
    simp only [hv]
    rw [← suffixRow_eq_cons, ih (p ++ [x]) v]

/-- The outer loop of the JS matrix fill maintains `suffixRow` as the
invariant for the current row. -/
theorem foldl_stepRow (a : List Char) :
    ∀ (b v : List Char),
      b.foldl (stepRow a) (suffixRow [] a v, v.length) =
        (suffixRow [] a (v ++ b), v.length + b.length) := by
  intro b
  induction b with
  | nil =>
    intro v
    simp
  | cons y b1 ih =>
    intro v
    rw [List.foldl_cons]
    have hstep : stepRow a (suffixRow [] a v, v.length) y =
        (suffixRow [] a (v ++ [y]), (v ++ [y]).length) := by
      unfold stepRow
      have hhead : v.length + 1 = lev [] (v ++ [y]) := by
        rw [lev_nil_left]
        simp
      rw [suffixRow_eq_cons [] a (v ++ [y])]
      simp only [hhead]
      rw [fillRow_spec y a [] v]
      simp [lev_nil_left]
    rw [hstep, ih (v ++ [y])]
    simp
    omega

theorem suffixRow_nil_snd (p u : List Char) :
    suffixRow p u [] = (List.range (u.length + 1)).map (fun k => p.length + k) := by
  induction u generalizing p with
  | nil =>
    simp [suffixRow, lev_nil_right, List.range_succ]
  | cons x xs ih =>
    rw [suffixRow, ih (p ++ [x]), lev_nil_right]
    have hr : List.range ((x :: xs).length + 1) =
        0 :: (List.range (xs.length + 1)).map (fun k => k + 1) := by
      simp [List.range_succ_eq_map, Nat.succ_eq_add_one]
    rw [hr]
    simp only [List.map_cons, List.map_map]
    congr 1
    apply List.map_congr_left
    intro k _
    simp
    omega

theorem suffixRow_getD (v : List Char) :
    ∀ (u p : List Char), (suffixRow p u v).getD u.length 0 = lev (p ++ u) v := by
  intro u
  induction u with
  | nil =>
    intro p
    simp [suffixRow]
  | cons x xs ih =>
    intro p
    rw [suffixRow]
    simp only [List.length_cons, List.getD_cons_succ]
    rw [ih (p ++ [x])]
    simp

/-- The JS dynamic program computes the reference recursion. -/
theorem levenshteinDistance_eq_lev (a b : List Char) :
    levenshteinDistance a b = lev a b := by
  unfold levenshteinDistance
  have hinit : (List.range (a.length + 1), 0) =
      ((suffixRow [] a [] : List Nat), ([] : List Char).length) := by
    rw [suffixRow_nil_snd]
    simp
  rw [hinit, foldl_stepRow a b []]
  simp only [List.nil_append]
  exact suffixRow_getD b a []

/-- C1: for all strings `a` and `b`, the JS `levenshteinDistance(a, b)` equals
the textbook Levenshtein edit distance: it is attained by an edit script of
single-character insertions, deletions and substitutions, it is a lower bound
for every such script, it is `0` iff `a = b`, and it is symmetric. -/
theorem levenshteinDistance_correct (a b : List Char) :
    ReachIn (levenshteinDistance a b) a b ∧
      (∀ n : Nat, ReachIn n a b → levenshteinDistance a b ≤ n) ∧
      (levenshteinDistance a b = 0 ↔ a = b) ∧
      levenshteinDistance a b = levenshteinDistance b a := by
  rw [levenshteinDistance_eq_lev, levenshteinDistance_eq_lev b a]
  exact ⟨reachIn_lev a b, fun n h => lev_le_of_reachIn h, lev_eq_zero_iff a b,
    lev_symm a b⟩

/-! ### Scholar records and fuzzy search (part_001, function `fuzzySearch`) -/

/-- A converted scholar record as used by the front end after loading
`data/scholars.json`. -/
structure Scholar where
  id : List Char
  name : List Char
  institution : List Char
  country : List Char
  umap : ℚ × ℚ
  cluster_id : Int
deriving DecidableEq, Repr

/-- JS `String.prototype.toLowerCase`. -/
def toLowerCase (s : List Char) : List Char := s.map Char.toLower

/-- The substring part of the `fuzzySearch` score `if`-chain, for an
already-lowercased query `q` and scholar name `name`: exact match 100,
prefix 80, word boundary 60, substring 40, otherwise the per-word
`Math.max` fold (prefix of a word 30, substring of a word 20). -/
def substringScore (q name : List Char) : ℚ :=
  if name = q then 100
  else if q.isPrefixOf name then 80
  else if ((' ' :: q) <:+: name ∨ (q ++ [' ']) <:+: name) then 60
  else if q <:+: name then 40
  else
    (name.splitOn ' ').foldl
      (fun sc word =>
        if q.isPrefixOf word then max sc 30
        else if q <:+: word then max sc 20
        else sc) 0

/-- The Levenshtein similarity part of the `fuzzySearch` score:
`(1 - distance / maxLength) * 20`. -/
def similarityScore (q name : List Char) : ℚ :=
  (1 - (levenshteinDistance q name : ℚ) /
      ((max q.length name.length : Nat) : ℚ)) * 20

/-- The total score the `fuzzySearch` map body assigns to one scholar. -/
def scholarScore (q : List Char) (scholar : Scholar) : ℚ :=
  substringScore q (toLowerCase scholar.name) +
    similarityScore q (toLowerCase scholar.name)

/-- `fuzzySearch` from part_001 (both copies are identical): score every
scholar, keep the strictly positive scores, sort by score descending and
return the scholars.  JS `Array.prototype.sort` with the comparator
`(a, b) => b.score - a.score` is modelled by a stable comparison sort. -/
def fuzzySearch (query : List Char) (scholars : List Scholar) : List Scholar :=
  if query = [] then []
  else
    let q := toLowerCase query
    let scored := scholars.map (fun s => (s, scholarScore q s))
    let filtered := scored.filter (fun p => 0 < p.2)
    let sorted := List.insertionSort (fun u v : Scholar × ℚ => v.2 ≤ u.2) filtered
    sorted.map (fun p => p.1)

theorem scholarScore_of_exact (q : List Char) (s : Scholar)
    (h : toLowerCase s.name = q) : scholarScore q s = 120 := by
  unfold scholarScore substringScore similarityScore
  rw [h]
  simp only [if_pos rfl]
  rw [levenshteinDistance_eq_lev, lev_self]
  norm_num

theorem levenshteinDistance_pos (a b : List Char) (h : a ≠ b) :
    1 ≤ levenshteinDistance a b := by
  rw [levenshteinDistance_eq_lev]
  rcases Nat.eq_zero_or_pos (lev a b) with h0 | h0
  · exact absurd ((lev_eq_zero_iff a b).mp h0) h
  · omega

theorem wordFold_le (q : List Char) (l : List (List Char)) :
    ∀ init : ℚ, init ≤ 30 →
      l.foldl
        (fun sc word =>
          if q.isPrefixOf word then max sc 30
          else if q <:+: word then max sc 20
          else sc) init ≤ 30 := by
  induction l with
  | nil =>
    intro init h
    simpa using h
  | cons w ws ih =>
    intro init h
    rw [List.foldl_cons]
    apply ih
    by_cases h1 : q.isPrefixOf w
    · rw [if_pos h1]
      exact max_le h (by norm_num)
    · rw [if_neg h1]
      by_cases h2 : q <:+: w
      · rw [if_pos h2]
        exact max_le h (by norm_num)
      · rw [if_neg h2]
        exact h

theorem substringScore_le_of_not_exact (q name : List Char) (h : name ≠ q) :
    substringScore q name ≤ 80 := by
  unfold substringScore
  rw [if_neg h]
  by_cases h1 : q.isPrefixOf name
  · rw [if_pos h1]
  · rw [if_neg h1]
    by_cases h2 : (' ' :: q) <:+: name ∨ (q ++ [' ']) <:+: name
    · rw [if_pos h2]
      norm_num
    · rw [if_neg h2]
      by_cases h3 : q <:+: name
      · rw [if_pos h3]
        norm_num
      · rw [if_neg h3]
        exact le_trans (wordFold_le q _ 0 (by norm_num)) (by norm_num)

theorem similarityScore_lt_of_ne (q name : List Char) (h : name ≠ q) :
    similarityScore q name < 20 := by
  unfold similarityScore
  have hd : 1 ≤ levenshteinDistance q name :=
    levenshteinDistance_pos q name (fun e => h e.symm)
  have hm : 1 ≤ max q.length name.length := by
    rcases Nat.eq_zero_or_pos (max q.length name.length) with h0 | h0
    · exfalso
      have hq0 : q.length = 0 := by omega
      have hn0 : name.length = 0 := by omega
      exact h (by
        rw [List.length_eq_zero.mp hq0, List.length_eq_zero.mp hn0])
    · exact h0
  have hdq : (0 : ℚ) < (levenshteinDistance q name : ℚ) /
      ((max q.length name.length : Nat) : ℚ) := by
    apply div_pos
    · exact_mod_cast hd
    · exact_mod_cast hm
  nlinarith

theorem scholarScore_lt_of_not_exact (q : List Char) (s : Scholar)
    (h : toLowerCase s.name ≠ q) : scholarScore q s < 100 := by
  unfold scholarScore
  have h1 := substringScore_le_of_not_exact q (toLowerCase s.name) h
  have h2 := similarityScore_lt_of_ne q (toLowerCase s.name) h
  linarith

instance : IsTotal (Scholar × ℚ) (fun u v => v.2 ≤ u.2) :=
  ⟨fun a b => le_total b.2 a.2⟩

instance : IsTrans (Scholar × ℚ) (fun u v => v.2 ≤ u.2) :=
  ⟨fun _ _ _ h1 h2 => le_trans h2 h1⟩

/-- C2: for every query of length at least 2 and every scholar list,
`fuzzySearch` returns exactly the scholars with strictly positive combined
score (as a permutation of the filtered input), in non-increasing score
order, and every scholar whose lowercased name equals the lowercased query
is ranked ahead of every scholar whose lowercased name differs from it. -/
theorem fuzzySearch_spec (query : List Char) (scholars : List Scholar)
    (hlen : 2 ≤ query.length) :
    List.Perm (fuzzySearch query scholars)
        (scholars.filter (fun s => 0 < scholarScore (toLowerCase query) s)) ∧
      List.Sorted (fun a b : ℚ => b ≤ a)
        ((fuzzySearch query scholars).map (scholarScore (toLowerCase query))) ∧
      ∀ i j : Fin (fuzzySearch query scholars).length,
        toLowerCase ((fuzzySearch query scholars).get i).name = toLowerCase query →
        toLowerCase ((fuzzySearch query scholars).get j).name ≠ toLowerCase query →
        i < j := by
  have hqne : ¬ query = [] := by
    intro h0
    rw [h0] at hlen
    simp at hlen
  have hres : fuzzySearch query scholars =
      (List.insertionSort (fun u v : Scholar × ℚ => v.2 ≤ u.2)
        ((scholars.map
            (fun s => (s, scholarScore (toLowerCase query) s))).filter
          (fun p => 0 < p.2))).map (fun p => p.1) := by
    unfold fuzzySearch
    rw [if_neg hqne]
  set q := toLowerCase query with hqdef
  set scored := scholars.map (fun s => (s, scholarScore q s)) with hscored
  set filtered := scored.filter (fun p : Scholar × ℚ => 0 < p.2) with hfiltered
  set sorted :=
    List.insertionSort (fun u v : Scholar × ℚ => v.2 ≤ u.2) filtered with hsorted
  have hperm1 : List.Perm sorted filtered := List.perm_insertionSort _ _
  have hsort : List.Pairwise (fun u v : Scholar × ℚ => v.2 ≤ u.2) sorted :=
    List.sorted_insertionSort _ _
  have hmemscore : ∀ p ∈ sorted, p.2 = scholarScore q p.1 := by
    intro p hp
    have h1 : p ∈ filtered := hperm1.mem_iff.mp hp
    have h2 : p ∈ scored := List.mem_of_mem_filter h1
    rw [hscored] at h2
    obtain ⟨s, _, he⟩ := List.mem_map.mp h2
    rw [← he]
  have hfil : filtered =
      (scholars.filter (fun s => 0 < scholarScore q s)).map
        (fun s => (s, scholarScore q s)) := by
    rw [hfiltered, hscored, List.filter_map]
    rfl
  refine ⟨?_, ?_, ?_⟩
  · rw [hres]
    have h1 : List.Perm (sorted.map (fun p : Scholar × ℚ => p.1))
        (filtered.map (fun p : Scholar × ℚ => p.1)) := hperm1.map _
    have h2 : filtered.map (fun p : Scholar × ℚ => p.1) =
        scholars.filter (fun s => 0 < scholarScore q s) := by
      rw [hfil, List.map_map]
      exact List.map_id _
    rw [h2] at h1
    exact h1
  · rw [hres, List.map_map]
    rw [List.Sorted, List.pairwise_map]
    apply hsort.imp_of_mem
    intro u v hu hv h1
    have eu := hmemscore u hu
    have ev := hmemscore v hv
    simp only [Function.comp]
    rw [← eu, ← ev]
    exact h1
  · intro i j hiex hjex
    have hpairres : List.Pairwise
        (fun s t : Scholar =>
          scholarScore q t ≤ scholarScore q s) (fuzzySearch query scholars) := by
      rw [hres, List.pairwise_map]
      apply hsort.imp_of_mem
      intro u v hu hv h1
      have eu := hmemscore u hu
      have ev := hmemscore v hv
      rw [← eu, ← ev]
      exact h1
    have hget := List.pairwise_iff_get.mp hpairres
    by_contra hij
    have hji : j ≤ i := not_lt.mp hij
    rcases lt_or_eq_of_le hji with hji | hji
    · have h1 := hget j i hji
      have h2 : scholarScore q ((fuzzySearch query scholars).get i) = 120 :=
        scholarScore_of_exact q _ hiex
      have h3 : scholarScore q ((fuzzySearch query scholars).get j) < 100 :=
        scholarScore_lt_of_not_exact q _ hjex
      rw [h2] at h1
      linarith
    · rw [hji] at hjex
      exact hjex hiex

/-! ### Rectangle selection (part_001, mouseup handler and
`showScholarsInSelectedArea`)

A scholar node on the map is an SVG circle whose `cx`/`cy` attributes were
set from the scholar it was created for; `window.scholarsData` lookup by
`data-id` recovers that scholar, so a node is modelled as a scholar paired
with its centre coordinates. -/
structure ScholarNode where
  scholar : Scholar
  cx : ℚ
  cy : ℚ
deriving DecidableEq

/-- `showScholarsInSelectedArea` from part_001: keep the scholars whose node
centre lies inside the closed selection rectangle. -/
def showScholarsInSelectedArea (x y width height : ℚ)
    (nodes : List ScholarNode) : List Scholar :=
  let x1 := x
  let y1 := y
  let x2 := x + width
  let y2 := y + height
  (nodes.filter
      (fun n => x1 ≤ n.cx ∧ n.cx ≤ x2 ∧ y1 ≤ n.cy ∧ n.cy ≤ y2)).map
    (fun n => n.scholar)

/-- The selection part of the part_001 mouseup handler: the selected-area
result is shown only when `width > 10 && height > 10`; otherwise nothing is
selected (`none`). -/
def mouseupSelection (x y width height : ℚ)
    (nodes : List ScholarNode) : Option (List Scholar) :=
  if 10 < width ∧ 10 < height
  then some (showScholarsInSelectedArea x y width height nodes)
  else none

/-- C3: on release, when the rectangle is larger than 10 x 10 a scholar is in
the selected-area result iff its node centre `(cx, cy)` satisfies
`x ≤ cx ≤ x + width` and `y ≤ cy ≤ y + height`; a rectangle with
`width ≤ 10` or `height ≤ 10` selects nothing. -/
theorem mouseupSelection_spec (x y width height : ℚ) (nodes : List ScholarNode)
    (hinj : ∀ n1 ∈ nodes, ∀ n2 ∈ nodes, n1.scholar = n2.scholar → n1 = n2) :
    (10 < width ∧ 10 < height →
      ∀ n ∈ nodes,
        (n.scholar ∈ (mouseupSelection x y width height nodes).getD [] ↔
          x ≤ n.cx ∧ n.cx ≤ x + width ∧ y ≤ n.cy ∧ n.cy ≤ y + height)) ∧
      (width ≤ 10 ∨ height ≤ 10 →
        mouseupSelection x y width height nodes = none) := by
  constructor
  · intro hsz n hn
    unfold mouseupSelection
    rw [if_pos hsz]
    unfold showScholarsInSelectedArea
    simp only [Option.getD_some]
    constructor
    · intro hmem
      obtain ⟨n2, hn2, he⟩ := List.mem_map.mp hmem
      have hn2f := List.mem_filter.mp hn2
      have heq : n2 = n := hinj n2 (hn2f.1) n hn he
      rw [heq] at hn2f
      have := of_decide_eq_true hn2f.2
      exact this
    · intro hcoord
      apply List.mem_map.mpr
      refine ⟨n, List.mem_filter.mpr ⟨hn, decide_eq_true hcoord⟩, rfl⟩
  · intro hsmall
    unfold mouseupSelection
    rw [if_neg]
    intro h
    rcases hsmall with h1 | h1 <;> [exact absurd h.1 (not_lt.mpr h1);
      exact absurd h.2 (not_lt.mpr h1)]

/-! ### Wheel zoom (script.js, wheel handler in `createScholarMap`) -/

/-- JS `const zoomFactor = e.deltaY < 0 ? 1.05 : 0.95`. -/
def wheelZoomFactor (deltaY : ℚ) : ℚ := if deltaY < 0 then 1.05 else 0.95

/-- JS `if (currentZoom < 0.2) currentZoom = 0.2`. -/
def clampLow (z : ℚ) : ℚ := if z < 0.2 then 0.2 else z

/-- JS `if (currentZoom > 8) currentZoom = 8`. -/
def clampHigh (z : ℚ) : ℚ := if 8 < z then 8 else z

/-- The zoom value after `currentZoom *= zoomFactor` and the two sequential
clamps of the wheel handler. -/
def wheelNewZoom (deltaY zoom : ℚ) : ℚ :=
  clampHigh (clampLow (zoom * wheelZoomFactor deltaY))

/-- The wheel handler from script.js: compute the zoom factor from the wheel
direction, multiply and clamp the zoom to `[0.2, 8]`, and add
`(pointAfterZoom - pointBeforeZoom) * currentZoom` to the translation, where
`pointBeforeZoom = (mouse - translate) / oldZoom` and
`pointAfterZoom = (mouse - translate) / newZoom`.  Returns
`(newZoom, newTranslateX, newTranslateY)`. -/
def wheelUpdate (deltaY zoom tx ty mouseX mouseY : ℚ) : ℚ × ℚ × ℚ :=
  (wheelNewZoom deltaY zoom,
    tx + ((mouseX - tx) / wheelNewZoom deltaY zoom - (mouseX - tx) / zoom) *
      wheelNewZoom deltaY zoom,
    ty + ((mouseY - ty) / wheelNewZoom deltaY zoom - (mouseY - ty) / zoom) *
      wheelNewZoom deltaY zoom)

theorem wheelNewZoom_mem (deltaY zoom : ℚ) :
    (0.2 : ℚ) ≤ wheelNewZoom deltaY zoom ∧ wheelNewZoom deltaY zoom ≤ 8 := by
  unfold wheelNewZoom clampHigh clampLow
  by_cases h1 : zoom * wheelZoomFactor deltaY < 0.2
  · rw [if_pos h1]
    norm_num
  · rw [if_neg h1]
    by_cases h2 : (8 : ℚ) < zoom * wheelZoomFactor deltaY
    · rw [if_pos h2]
      norm_num
    · rw [if_neg h2]
      exact ⟨not_lt.mp h1, not_lt.mp h2⟩

/-- C4: after a wheel event from a state with positive zoom, the new zoom
factor lies in `[0.2, 8]`, and the world point that was under the mouse
before the zoom is mapped to the mouse position again by the new transform,
including when the zoom was clamped. -/
theorem wheelUpdate_spec (deltaY zoom tx ty mouseX mouseY : ℚ)
    (hz : 0 < zoom) :
    ((0.2 : ℚ) ≤ (wheelUpdate deltaY zoom tx ty mouseX mouseY).1 ∧
        (wheelUpdate deltaY zoom tx ty mouseX mouseY).1 ≤ 8) ∧
      (wheelUpdate deltaY zoom tx ty mouseX mouseY).2.1 +
          ((mouseX - tx) / zoom) * (wheelUpdate deltaY zoom tx ty mouseX mouseY).1 =
        mouseX ∧
      (wheelUpdate deltaY zoom tx ty mouseX mouseY).2.2 +
          ((mouseY - ty) / zoom) * (wheelUpdate deltaY zoom tx ty mouseX mouseY).1 =
        mouseY := by
  have hb := wheelNewZoom_mem deltaY zoom
  have hw : wheelNewZoom deltaY zoom ≠ 0 := by
    intro h0
    rw [h0] at hb
    norm_num at hb
  unfold wheelUpdate
  dsimp only
  refine ⟨hb, ?_, ?_⟩
  · have hcan : (mouseX - tx) / wheelNewZoom deltaY zoom * wheelNewZoom deltaY zoom =
        mouseX - tx := div_mul_cancel₀ _ hw
    linear_combination hcan
  · have hcan : (mouseY - ty) / wheelNewZoom deltaY zoom * wheelNewZoom deltaY zoom =
        mouseY - ty := div_mul_cancel₀ _ hw
    linear_combination hcan

/-! ### Coordinate scaling (script.js, `scaleX` / `scaleY` in
`createScholarMap`) -/

/-- JS `Math.min(...values)` over a non-empty array, as a fold. -/
def listMin : List ℚ → ℚ
  | [] => 0
  | x :: xs => xs.foldl min x

/-- JS `Math.max(...values)` over a non-empty array, as a fold. -/
def listMax : List ℚ → ℚ
  | [] => 0
  | x :: xs => xs.foldl max x

/-- JS `scaleX` from `createScholarMap`:
`((x - xMin) / (xMax - xMin)) * 900 + 50` (and `scaleY` is the same formula
on the y extent). -/
def scaleX (xMin xMax x : ℚ) : ℚ := ((x - xMin) / (xMax - xMin)) * 900 + 50

theorem foldl_min_le (xs : List ℚ) : ∀ a : ℚ, xs.foldl min a ≤ a := by
  induction xs with
  | nil => intro a; simp
  | cons x xs ih =>
    intro a
    rw [List.foldl_cons]
    exact le_trans (ih (min a x)) (min_le_left a x)

theorem foldl_min_le_mem (xs : List ℚ) :
    ∀ (a : ℚ), ∀ x ∈ xs, xs.foldl min a ≤ x := by
  induction xs with
  | nil => intro a x hx; simp at hx
  | cons y ys ih =>
    intro a x hx
    rw [List.foldl_cons]
    rcases List.mem_cons.mp hx with h | h
    · subst h
      exact le_trans (foldl_min_le ys (min a x)) (min_le_right a x)
    · exact ih (min a y) x h

theorem le_foldl_max (xs : List ℚ) : ∀ a : ℚ, a ≤ xs.foldl max a := by
  induction xs with
  | nil => intro a; simp
  | cons x xs ih =>
    intro a
    rw [List.foldl_cons]
    exact le_trans (le_max_left a x) (ih (max a x))

theorem mem_le_foldl_max (xs : List ℚ) :
    ∀ (a : ℚ), ∀ x ∈ xs, x ≤ xs.foldl max a := by
  induction xs with
  | nil => intro a x hx; simp at hx
  | cons y ys ih =>
    intro a x hx
    rw [List.foldl_cons]
    rcases List.mem_cons.mp hx with h | h
    · subst h
      exact le_trans (le_max_right a x) (le_foldl_max ys (max a x))
    · exact ih (max a y) x h

theorem listMin_le (l : List ℚ) (x : ℚ) (hx : x ∈ l) : listMin l ≤ x := by
  cases l with
  | nil => simp at hx
  | cons y ys =>
    unfold listMin
    rcases List.mem_cons.mp hx with h | h
    · subst h
      exact foldl_min_le ys x
    · exact foldl_min_le_mem ys y x h

theorem le_listMax (l : List ℚ) (x : ℚ) (hx : x ∈ l) : x ≤ listMax l := by
  cases l with
  | nil => simp at hx
  | cons y ys =>
    unfold listMax
    rcases List.mem_cons.mp hx with h | h
    · subst h
      exact le_foldl_max ys x
    · exact mem_le_foldl_max ys y x h

/-- C5: with `xMin`/`xMax` the extremes of the scholars' x coordinates (not
all equal), `scaleX` is affine, maps `xMin` to `50` and `xMax` to `950`, and
maps every scholar's x coordinate into `[50, 950]`; `scaleY` is the same
function applied to the y extent, so the claim for y is this statement at
the y coordinates. -/
theorem scaleX_spec (scholars : List Scholar)
    (s1 : Scholar) (h1 : s1 ∈ scholars) (s2 : Scholar) (h2 : s2 ∈ scholars)
    (hne : s1.umap.1 ≠ s2.umap.1) :
    scaleX (listMin (scholars.map (fun s => s.umap.1)))
        (listMax (scholars.map (fun s => s.umap.1)))
        (listMin (scholars.map (fun s => s.umap.1))) = 50 ∧
      scaleX (listMin (scholars.map (fun s => s.umap.1)))
        (listMax (scholars.map (fun s => s.umap.1)))
        (listMax (scholars.map (fun s => s.umap.1))) = 950 ∧
      (∃ A B : ℚ, A ≠ 0 ∧ ∀ t : ℚ,
        scaleX (listMin (scholars.map (fun s => s.umap.1)))
          (listMax (scholars.map (fun s => s.umap.1))) t = A * t + B) ∧
      ∀ s ∈ scholars,
        50 ≤ scaleX (listMin (scholars.map (fun s => s.umap.1)))
            (listMax (scholars.map (fun s => s.umap.1))) s.umap.1 ∧
          scaleX (listMin (scholars.map (fun s => s.umap.1)))
            (listMax (scholars.map (fun s => s.umap.1))) s.umap.1 ≤ 950 := by
  set xMin := listMin (scholars.map (fun s => s.umap.1)) with hxmin
  set xMax := listMax (scholars.map (fun s => s.umap.1)) with hxmax
  have hmem1 : s1.umap.1 ∈ scholars.map (fun s => s.umap.1) :=
    List.mem_map.mpr ⟨s1, h1, rfl⟩
  have hmem2 : s2.umap.1 ∈ scholars.map (fun s => s.umap.1) :=
    List.mem_map.mpr ⟨s2, h2, rfl⟩
  have hlt : xMin < xMax := by
    rcases lt_trichotomy s1.umap.1 s2.umap.1 with h | h | h
    · exact lt_of_le_of_lt (listMin_le _ _ hmem1)
        (lt_of_lt_of_le h (le_listMax _ _ hmem2))
    · exact absurd h hne
    · exact lt_of_le_of_lt (listMin_le _ _ hmem2)
        (lt_of_lt_of_le h (le_listMax _ _ hmem1))
  have hd : xMax - xMin ≠ 0 := by
    intro h0
    have : xMax = xMin := by linarith
    rw [this] at hlt
    exact lt_irrefl _ hlt
  refine ⟨?_, ?_, ?_, ?_⟩
  · unfold scaleX
    rw [sub_self, zero_div]
    ring
  · unfold scaleX
    rw [div_self hd]
    ring
  · refine ⟨900 / (xMax - xMin), (-xMin) / (xMax - xMin) * 900 + 50, ?_, ?_⟩
    · apply div_ne_zero
      · norm_num
      · exact hd
    · intro t
      unfold scaleX
      field_simp
      ring
  · intro s hs
    have hmem : s.umap.1 ∈ scholars.map (fun s => s.umap.1) :=
      List.mem_map.mpr ⟨s, hs, rfl⟩
    have hlo : xMin ≤ s.umap.1 := listMin_le _ _ hmem
    have hhi : s.umap.1 ≤ xMax := le_listMax _ _ hmem
    have hdpos : 0 < xMax - xMin := by linarith
    constructor
    · unfold scaleX
      have h0 : 0 ≤ (s.umap.1 - xMin) / (xMax - xMin) :=
        div_nonneg (by linarith) (le_of_lt hdpos)
      nlinarith
    · unfold scaleX
      have h1q : (s.umap.1 - xMin) / (xMax - xMin) ≤ 1 :=
        (div_le_one hdpos).mpr (by linarith)
      nlinarith

/-! ### Loading `data/scholars.json` (script.js, DOMContentLoaded handler)

A raw JSON record: `id` and `name` are strings whose JS truthiness is
non-emptiness, `umap_projection` is either absent or an object with `x`/`y`,
`institution`/`country` default to the empty string, `cluster` to `0`. -/
structure RawScholar where
  id : List Char
  name : List Char
  institution : List Char
  country : List Char
  umap_projection : Option (ℚ × ℚ)
  cluster : Int
deriving DecidableEq

/-- The converted record built by the `Object.entries(...).map` step:
`umap` is `[umap_projection.x, umap_projection.y]` when `umap_projection`
is present and `null` (`none`) otherwise. -/
structure ConvScholar where
  id : List Char
  name : List Char
  institution : List Char
  country : List Char
  umap : Option (List ℚ)
  cluster_id : Int
deriving DecidableEq

/-- The conversion step of the DOMContentLoaded handler in script.js. -/
def convertScholar (r : RawScholar) : ConvScholar :=
  { id := r.id
    name := r.name
    institution := r.institution
    country := r.country
    umap := r.umap_projection.map (fun p => [p.1, p.2])
    cluster_id := r.cluster }

/-- The `validScholars` filter predicate of script.js: truthy `id`, truthy
`name`, and `umap` a (non-null) array of exactly 2 elements. -/
def isValidScholar (s : ConvScholar) : Bool :=
  (match s.umap with
    | some l => decide (l.length = 2)
    | none => false) &&
    !s.id.isEmpty && !s.name.isEmpty

/-- The converted-and-filtered scholar list stored in `window.scholarsData`. -/
def validScholars (rs : List RawScholar) : List ConvScholar :=
  (rs.map convertScholar).filter isValidScholar

/-- C6: a converted record is kept (appears in `window.scholarsData` and so
on the map) iff its source record has a truthy (non-empty) `id`, a truthy
`name`, and a `umap_projection`, which the conversion turns into a
2-element `umap` array. -/
theorem validScholars_spec (rs : List RawScholar) (r : RawScholar)
    (h : r ∈ rs) :
    convertScholar r ∈ validScholars rs ↔
      r.id ≠ [] ∧ r.name ≠ [] ∧ ∃ p : ℚ × ℚ, r.umap_projection = some p := by
  have hvalid : isValidScholar (convertScholar r) = true ↔
      r.id ≠ [] ∧ r.name ≠ [] ∧ ∃ p : ℚ × ℚ, r.umap_projection = some p := by
    unfold isValidScholar convertScholar
    cases hp : r.umap_projection with
    | none =>
      simp [hp]
    | some p =>
      simp [hp, List.isEmpty_iff]
  constructor
  · intro hmem
    have h2 := List.mem_filter.mp hmem
    exact hvalid.mp h2.2
  · intro hcond
    exact List.mem_filter.mpr
      ⟨List.mem_map.mpr ⟨r, h, rfl⟩, hvalid.mpr hcond⟩

/-- The inline error message used when the fetch fails (the `catch`). -/
def errLoadMsg : List Char :=
  ("Error loading scholar data. Please check the console for details.").toList

/-- The inline error message for an empty scholar list. -/
def errNoDataMsg : List Char :=
  ("No scholar data found. Please check the console for errors.").toList

/-- The inline error message for no valid scholars. -/
def errNoValidMsg : List Char :=
  ("No valid scholar data found. Please check the console for details.").toList

/-- Outcome of the DOMContentLoaded data-load flow: either the map
container's innerHTML is replaced with an inline error message, or the app
proceeds to `createScholarMap` / `setupSidebar` / `setupFilters` /
`setupSearch` with the valid scholars. -/
inductive LoadResult where
  | errorMessage : List Char → LoadResult
  | success : List ConvScholar → LoadResult
deriving DecidableEq

/-- The DOMContentLoaded flow of script.js: `none` models a non-ok response
(the `throw` is caught and the catch block writes the error message); an
empty conversion result or an empty `validScholars` list writes the
corresponding message and returns before any setup. -/
def loadScholars (response : Option (List RawScholar)) : LoadResult :=
  match response with
  | none => LoadResult.errorMessage errLoadMsg
  | some raw =>
    let scholars := raw.map convertScholar
    if scholars.length = 0 then LoadResult.errorMessage errNoDataMsg
    else
      let valid := scholars.filter isValidScholar
      if valid.length = 0 then LoadResult.errorMessage errNoValidMsg
      else LoadResult.success valid

/-- C7: a non-ok response, an empty scholar list, or no scholar passing
validation all replace the map container with an inline error message, and
the map/filters/search setup is never reached. -/
theorem loadScholars_error_spec (response : Option (List RawScholar))
    (h : response = none ∨
      response = some [] ∨
      (∃ raw, response = some raw ∧ validScholars raw = [])) :
    ∃ msg, loadScholars response = LoadResult.errorMessage msg ∧
      ∀ valid, loadScholars response ≠ LoadResult.success valid := by
  rcases h with h | h | ⟨raw, hr, hv⟩
  · subst h
    exact ⟨errLoadMsg, rfl, fun valid => by simp [loadScholars]⟩
  · subst h
    refine ⟨errNoDataMsg, ?_, ?_⟩
    · simp [loadScholars]
    · intro valid
      simp [loadScholars]
  · subst hr
    simp only [loadScholars]
    by_cases hlen : (raw.map convertScholar).length = 0
    · rw [if_pos hlen]
      exact ⟨errNoDataMsg, rfl, fun valid h2 => by simp at h2⟩
    · rw [if_neg hlen]
      have hv2 : ((raw.map convertScholar).filter isValidScholar).length = 0 := by
        unfold validScholars at hv
        rw [hv]
        rfl
      rw [if_pos hv2]
      exact ⟨errNoValidMsg, rfl, fun valid h2 => by simp at h2⟩

/-! ### Markdown formatter (script.js, `formatMarkdown` and
`processMarkdownSection`)

The JS formatter is a pipeline of regex replaces and a line loop.  All the
regexes use `.`, which does not match a newline, so the global replaces for
headers, bold, and links act line by line; they are modelled as maps over
the line list.  The non-greedy captures are modelled by scanning for the
first closing delimiter. -/

/-- JS `String.prototype.trim` (whitespace here is space, tab, CR, LF). -/
def trimStr (s : List Char) : List Char :=
  ((s.dropWhile Char.isWhitespace).reverse.dropWhile Char.isWhitespace).reverse

/-- The `### ` header replace `^### (.*?)$` applied to one line. -/
def replaceH5Line (line : List Char) : List Char :=
  if ('#' :: '#' :: '#' :: ' ' :: []).isPrefixOf line then
    ("<h5>").toList ++ line.drop 4 ++ ("</h5>").toList
  else line

/-- The `# ` header replace `^# (.*?)$` applied to one line. -/
def replaceH3Line (line : List Char) : List Char :=
  if ('#' :: ' ' :: []).isPrefixOf line then
    ("<h3>").toList ++ line.drop 2 ++ ("</h3>").toList
  else line

/-- Scan for the first doubled delimiter (`**` or `__`); returns the text
before it and the text after it. -/
def findDelim2 (d : Char) : List Char → Option (List Char × List Char)
  | c1 :: c2 :: rest =>
    if c1 = d ∧ c2 = d then some ([], rest)
    else (findDelim2 d (c2 :: rest)).map (fun pr => (c1 :: pr.1, pr.2))
  | _ => none

theorem findDelim2_length (d : Char) :
    ∀ (l m a : List Char), findDelim2 d l = some (m, a) →
      a.length < l.length := by
  intro l
  induction l with
  | nil =>
    intro m a h
    simp [findDelim2] at h
  | cons c1 t ih =>
    intro m a h
    cases t with
    | nil => simp [findDelim2] at h
    | cons c2 rest =>
      rw [findDelim2] at h
      by_cases hc : c1 = d ∧ c2 = d
      · rw [if_pos hc] at h
        simp only [Option.some.injEq, Prod.mk.injEq] at h
        rw [← h.2]
        simp only [List.length_cons]
        omega
      · rw [if_neg hc] at h
        rcases Option.map_eq_some'.mp h with ⟨pr, hpr, hval⟩
        cases hval
        have hlen := ih pr.1 pr.2 (by rw [hpr])
        simp only [List.length_cons] at hlen ⊢
        omega

/-- Scan for the first occurrence of a single character; returns the text
before it and the text after it. -/
def findChar (d : Char) : List Char → Option (List Char × List Char)
  | [] => none
  | c :: rest =>
    if c = d then some ([], rest)
    else (findChar d rest).map (fun pr => (c :: pr.1, pr.2))

theorem findChar_length (d : Char) :
    ∀ (l m a : List Char), findChar d l = some (m, a) → a.length < l.length := by
  intro l
  induction l with
  | nil =>
    intro m a h
    simp [findChar] at h
  | cons c rest ih =>
    intro m a h
    rw [findChar] at h
    by_cases hc : c = d
    · rw [if_pos hc] at h
      simp only [Option.some.injEq, Prod.mk.injEq] at h
      rw [← h.2]
      simp only [List.length_cons]
      omega
    · rw [if_neg hc] at h
      rcases Option.map_eq_some'.mp h with ⟨pr, hpr, hval⟩
      cases hval
      have hlen := ih pr.1 pr.2 (by rw [hpr])
      simp only [List.length_cons] at hlen ⊢
      omega

/-- The global replace of a doubled delimiter pair (`/\*\*(.*?)\*\*/g` or
`/__(.*?)__/g`): on finding a doubled delimiter, the non-greedy capture runs
to the first closing doubled delimiter; without a closer the scan moves on
one character. -/
def replacePair2 (d : Char) (wl wr : List Char) : List Char → List Char
  | [] => []
  | [c] => [c]
  | c1 :: c2 :: rest =>
    if c1 = d ∧ c2 = d then
      match h : findDelim2 d rest with
      | some (mid, after) => wl ++ mid ++ wr ++ replacePair2 d wl wr after
      | none => c1 :: replacePair2 d wl wr (c2 :: rest)
    else c1 :: replacePair2 d wl wr (c2 :: rest)
termination_by l => l.length
decreasing_by
  all_goals simp only [List.length_cons]
  · have := findDelim2_length d _ _ _ h
    omega
  · omega
  · omega

/-- The global replace of a single-delimiter pair with a non-empty capture
(`/\*([^\*]+)\*/g` or `/_([^_]+)_/g`). -/
def replaceSingle (d : Char) (wl wr : List Char) : List Char → List Char
  | [] => []
  | c :: rest =>
    if c = d then
      match h : findChar d rest with
      | some (mid, after) =>
        if mid = [] then c :: replaceSingle d wl wr rest
        else wl ++ mid ++ wr ++ replaceSingle d wl wr after
      | none => c :: replaceSingle d wl wr rest
    else c :: replaceSingle d wl wr rest
termination_by l => l.length
decreasing_by
  all_goals simp only [List.length_cons]
  · omega
  · have := findChar_length d _ _ _ h
    omega
  · omega
  · omega

/-- Scan for the `](` of a markdown link; fails at a newline (`.` does not
match newlines in the JS regex). -/
def findLinkEnd : List Char → Option (List Char × List Char)
  | [] => none
  | c :: rest =>
    if c = '\n' then none
    else if c = ']' ∧ rest.take 1 = ['('] then some ([], rest.drop 1)
    else (findLinkEnd rest).map (fun pr => (c :: pr.1, pr.2))

theorem findLinkEnd_length :
    ∀ (l m a : List Char), findLinkEnd l = some (m, a) → a.length < l.length := by
  intro l
  induction l with
  | nil =>
    intro m a h
    simp [findLinkEnd] at h
  | cons c rest ih =>
    intro m a h
    rw [findLinkEnd] at h
    by_cases hnl : c = '\n'
    · rw [if_pos hnl] at h
      simp at h
    · rw [if_neg hnl] at h
      by_cases hb : c = ']' ∧ rest.take 1 = ['(']
      · rw [if_pos hb] at h
        simp only [Option.some.injEq, Prod.mk.injEq] at h
        rw [← h.2]
        simp only [List.length_cons, List.length_drop]
        omega
      · rw [if_neg hb] at h
        rcases Option.map_eq_some'.mp h with ⟨pr, hpr, hval⟩
        cases hval
        have hlen := ih pr.1 pr.2 (by rw [hpr])
        simp only [List.length_cons] at hlen ⊢
        omega

/-- Scan for the closing `)` of a markdown link; fails at a newline. -/
def findParen : List Char → Option (List Char × List Char)
  | [] => none
  | c :: rest =>
    if c = '\n' then none
    else if c = ')' then some ([], rest)
    else (findParen rest).map (fun pr => (c :: pr.1, pr.2))

theorem findParen_length :
    ∀ (l m a : List Char), findParen l = some (m, a) → a.length < l.length := by
  intro l
  induction l with
  | nil =>
    intro m a h
    simp [findParen] at h
  | cons c rest ih =>
    intro m a h
    rw [findParen] at h
    by_cases hnl : c = '\n'
    · rw [if_pos hnl] at h
      simp at h
    · rw [if_neg hnl] at h
      by_cases hcp : c = ')'
      · rw [if_pos hcp] at h
        simp only [Option.some.injEq, Prod.mk.injEq] at h
        rw [← h.2]
        simp only [List.length_cons]
        omega
      · rw [if_neg hcp] at h
        rcases Option.map_eq_some'.mp h with ⟨pr, hpr, hval⟩
        cases hval
        have hlen := ih pr.1 pr.2 (by rw [hpr])
        simp only [List.length_cons] at hlen ⊢
        omega

/-- The link replace `/\[(.*?)\]\((.*?)\)/g`. -/
def replaceLinks : List Char → List Char
  | [] => []
  | c :: rest =>
    if c = '[' then
      match h1 : findLinkEnd rest with
      | some (txt, rest2) =>
        match h2 : findParen rest2 with
        | some (url, rest3) =>
          ("<a href=\"").toList ++ url ++ ("\" target=\"_blank\">").toList ++
            txt ++ ("</a>").toList ++ replaceLinks rest3
        | none => c :: replaceLinks rest
      | none => c :: replaceLinks rest
    else c :: replaceLinks rest
termination_by l => l.length
decreasing_by
  all_goals simp only [List.length_cons]
  · have ha := findLinkEnd_length _ _ _ h1
    have hb := findParen_length _ _ _ h2
    omega
  · omega
  · omega
  · omega

/-- Opening tag written for bold captures. -/
def strongOpen : List Char := ("<strong>").toList

/-- Closing tag written for bold captures. -/
def strongClose : List Char := ("</strong>").toList

/-- Opening tag written for highlight (single `*` or `_`) captures. -/
def hlOpen : List Char := ("<span class=\"highlight-text\">").toList

/-- Closing tag written for highlight captures. -/
def hlClose : List Char := ("</span>").toList

/-- The trimmed-line bullet test `^[\*\-]\s+(.+)$`: a `*` or `-`, at least
one whitespace character, then a non-empty remainder (returned). -/
def bulletMatch (line : List Char) : Option (List Char) :=
  match line with
  | [] => none
  | c :: rest =>
    if c = '*' ∨ c = '-' then
      match rest with
      | [] => none
      | r1 :: _ =>
        if r1.isWhitespace then
          let content := rest.dropWhile Char.isWhitespace
          if content = [] then none else some content
        else none
    else none

/-- The `^\*\s+(.+)$` test used for `isSingleAsterisk` (evaluated only when
`bulletMatch` failed, and then always `none`, since the bullet pattern
subsumes it; embedded faithfully). -/
def singleAsteriskMatch (line : List Char) : Option (List Char) :=
  match line with
  | [] => none
  | c :: rest =>
    if c = '*' then
      match rest with
      | [] => none
      | r1 :: _ =>
        if r1.isWhitespace then
          let content := rest.dropWhile Char.isWhitespace
          if content = [] then none else some content
        else none
    else none

/-- The inline formatting applied inside one bullet: bold (`**`, `__`) then
highlight (`*`, `_`). -/
def bulletContentFormat (s : List Char) : List Char :=
  replaceSingle '_' hlOpen hlClose
    (replaceSingle '*' hlOpen hlClose
      (replacePair2 '_' strongOpen strongClose
        (replacePair2 '*' strongOpen strongClose s)))

/-- The highlight formatting applied to non-bullet lines. -/
def italicFormat (s : List Char) : List Char :=
  replaceSingle '_' hlOpen hlClose (replaceSingle '*' hlOpen hlClose s)

/-- State of the bullet-point loop of `processMarkdownSection`: whether a
`<ul>` is open, its accumulated content, and the emitted chunks. -/
structure MdLoopState where
  inList : Bool
  listContent : List Char
  result : List (List Char)
deriving DecidableEq

/-- One iteration of the bullet-point loop of `processMarkdownSection`. -/
def mdLineStep (st : MdLoopState) (rawLine : List Char) : MdLoopState :=
  let line := trimStr rawLine
  let isBullet := bulletMatch line
  let isSingleAsterisk :=
    if isBullet.isSome then none else singleAsteriskMatch line
  match isBullet, isSingleAsterisk with
  | some bulletContent, _ =>
    let st1 :=
      if st.inList then st
      else { st with inList := true, listContent := ("<ul>").toList }
    { st1 with
        listContent := st1.listContent ++ ("<li>").toList ++
          bulletContentFormat bulletContent ++ ("</li>").toList }
  | none, some bulletContent =>
    let st1 :=
      if st.inList then st
      else { st with inList := true, listContent := ("<ul>").toList }
    { st1 with
        listContent := st1.listContent ++ ("<li>").toList ++
          bulletContentFormat bulletContent ++ ("</li>").toList }
  | none, none =>
    let st2 :=
      if st.inList then
        { inList := false, listContent := [],
          result := st.result ++ [st.listContent ++ ("</ul>").toList] }
      else st
    if line ≠ [] ∧ ¬ (('<' :: 'h' :: []).isPrefixOf line) then
      { st2 with
          result := st2.result ++
            [("<p>").toList ++ italicFormat line ++ ("</p>").toList] }
    else if line ≠ [] then { st2 with result := st2.result ++ [line] }
    else st2

/-- The `/<p>\s*<\/p>/g` fix: drop empty paragraphs. -/
def removeEmptyP : List Char → List Char
  | [] => []
  | c :: rest =>
    if ('<' :: 'p' :: '>' :: []).isPrefixOf (c :: rest) then
      let after2 := (rest.drop 2).dropWhile Char.isWhitespace
      if ('<' :: '/' :: 'p' :: '>' :: []).isPrefixOf after2 then
        removeEmptyP (after2.drop 4)
      else c :: removeEmptyP rest
    else c :: removeEmptyP rest
termination_by l => l.length
decreasing_by
  · have h1 : (xs.drop 2).length ≤ xs.length := by
      simp [List.length_drop]
    have h2 : ((xs.drop 2).dropWhile Char.isWhitespace).length ≤
        (xs.drop 2).length :=
      (List.dropWhile_sublist Char.isWhitespace).length_le
    have h3 : (((xs.drop 2).dropWhile Char.isWhitespace).drop 4).length ≤
        ((xs.drop 2).dropWhile Char.isWhitespace).length := by
      simp [List.length_drop]
    simp only [List.length_cons]
    omega
  · simp only [List.length_cons]
    omega
  · simp only [List.length_cons]
    omega

/-- The `/<\/p>\s*<p>/g` fix: collapse whitespace between paragraphs. -/
def collapsePP : List Char → List Char
  | [] => []
  | c :: rest =>
    if ('<' :: '/' :: 'p' :: '>' :: []).isPrefixOf (c :: rest) then
      let after2 := (rest.drop 3).dropWhile Char.isWhitespace
      if ('<' :: 'p' :: '>' :: []).isPrefixOf after2 then
        ("</p><p>").toList ++ collapsePP (after2.drop 3)
      else c :: collapsePP rest
    else c :: collapsePP rest
termination_by l => l.length
decreasing_by
  · have h1 : (xs.drop 3).length ≤ xs.length := by
      simp [List.length_drop]
    have h2 : ((xs.drop 3).dropWhile Char.isWhitespace).length ≤
        (xs.drop 3).length :=
      (List.dropWhile_sublist Char.isWhitespace).length_le
    have h3 : (((xs.drop 3).dropWhile Char.isWhitespace).drop 3).length ≤
        ((xs.drop 3).dropWhile Char.isWhitespace).length := by
      simp [List.length_drop]
    simp only [List.length_cons]
    omega
  · simp only [List.length_cons]
    omega
  · simp only [List.length_cons]
    omega

/-- `processMarkdownSection` from script.js: return `''` for blank content;
otherwise run the header, bold, and link replaces (all line-wise, since `.`
does not match newlines), then the bullet-point loop, join with newlines,
and apply the two paragraph fixes. -/
def processMarkdownSection (content : List Char) : List Char :=
  if trimStr content = [] then []
  else
    let lines0 := content.splitOn '\n'
    let lines1 := lines0.map replaceH5Line
    let lines2 := lines1.map replaceH3Line
    let lines3 := lines2.map (replacePair2 '*' strongOpen strongClose)
    let lines4 := lines3.map (replacePair2 '_' strongOpen strongClose)
    let lines5 := lines4.map replaceLinks
    let st := lines5.foldl mdLineStep ⟨false, [], []⟩
    let chunks :=
      if st.inList then st.result ++ [st.listContent ++ ("</ul>").toList]
      else st.result
    collapsePP (removeEmptyP (List.intercalate ('\n' :: []) chunks))

/-- The scan behind `markdown.split(/^## /m)`: a `## ` right after a newline
ends the current piece (the newline stays with the piece) and the `## `
itself is consumed. -/
def splitMdAux (cur t : List Char) : List (List Char) :=
  match t with
  | [] => [cur]
  | c :: rest =>
    if c = '\n' ∧ rest.take 3 = ('#' :: '#' :: ' ' :: []) then
      (cur ++ ['\n']) :: splitMdAux [] (rest.drop 3)
    else splitMdAux (cur ++ [c]) rest
termination_by t.length
decreasing_by
  · simp only [List.length_cons, List.length_drop]
    omega
  · simp only [List.length_cons]
    omega

/-- `markdown.split(/^## /m)`: the anchor also matches at the very start of
the string. -/
def splitMd (s : List Char) : List (List Char) :=
  if s.take 3 = ('#' :: '#' :: ' ' :: []) then [] :: splitMdAux [] (s.drop 3)
  else splitMdAux [] s

/-- The `if (sections[0] && !sections[0].startsWith('#'))` part of
`formatMarkdown`. -/
def firstPartHtml (s0 : List Char) : List Char :=
  if s0 ≠ [] ∧ ¬ (('#' :: []) <+: s0) then processMarkdownSection s0 else []

/-- The per-section emission of `formatMarkdown`: `<h4>` with the first
line, then a `section-content` div with the processed remaining lines. -/
def sectionHtml (sec : List Char) : List Char :=
  let sectionLines := sec.splitOn '\n'
  let sectionTitle := sectionLines.headD []
  let sectionContent := List.intercalate ('\n' :: []) (sectionLines.drop 1)
  ("<h4>").toList ++ sectionTitle ++ ("</h4>").toList ++
    ("<div class=\"section-content\">").toList ++
    processMarkdownSection sectionContent ++ ("</div>").toList

/-- `formatMarkdown` from script.js. -/
def formatMarkdown (markdown : List Char) : List Char :=
  if markdown = [] then []
  else
    let sections := splitMd markdown
    firstPartHtml (sections.headD []) ++
      ((sections.drop 1).map sectionHtml).flatten

/-- The section delimiter matched by `/^## /m` away from the string start:
a newline followed by `## `. -/
def mdDelim : List Char := '\n' :: '#' :: '#' :: ' ' :: []

/-- A markdown document assembled from an intro and a list of sections, each
section introduced by a line starting `## `. -/
def mdJoin (intro : List Char) : List (List Char) → List Char
  | [] => intro
  | s :: ss => intro ++ mdDelim ++ mdJoin s ss

/-- The pieces `split(/^## /m)` produces for such a document: every piece
except the last keeps the newline that preceded the `## `. -/
def mdPieces (intro : List Char) : List (List Char) → List (List Char)
  | [] => [intro]
  | s :: ss => (intro ++ ['\n']) :: mdPieces s ss

theorem infix_cons_lift {l t : List Char} (c : Char) (h : l <:+: t) :
    l <:+: c :: t := by
  obtain ⟨s, u, he⟩ := h
  exact ⟨c :: s, u, by rw [← he]; simp⟩

theorem splitMdAux_no (t : List Char) (ht : ¬ mdDelim <:+: t) :
    ∀ cur, splitMdAux cur t = [cur ++ t] := by
  induction t with
  | nil =>
    intro cur
    simp [splitMdAux]
  | cons c rest ih =>
    intro cur
    have hcond : ¬ (c = '\n' ∧ rest.take 3 = ('#' :: '#' :: ' ' :: [])) := by
      rintro ⟨h1, h2⟩
      subst h1
      apply ht
      have hpre : ('#' :: '#' :: ' ' :: []) <+: rest :=
        List.prefix_iff_eq_take.mpr h2.symm
      obtain ⟨u, hu⟩ := hpre
      exact ⟨[], u, by rw [← hu]; simp [mdDelim]⟩
    rw [splitMdAux, if_neg hcond]
    have hrest : ¬ mdDelim <:+: rest := fun hi => ht (infix_cons_lift c hi)
    rw [ih hrest (cur ++ [c])]
    simp

theorem splitMdAux_delim (t : List Char) (ht : ¬ mdDelim <:+: t)
    (more : List Char) :
    ∀ cur, splitMdAux cur (t ++ mdDelim ++ more) =
      (cur ++ t ++ ['\n']) :: splitMdAux [] more := by
  induction t with
  | nil =>
    intro cur
    simp only [List.nil_append, List.append_nil]
    rw [mdDelim, List.cons_append, splitMdAux]
    rw [if_pos ⟨rfl, rfl⟩]
    simp
  | cons c rest ih =>
    intro cur
    have hcond : ¬ (c = '\n' ∧
        ((rest ++ mdDelim ++ more).take 3 = ('#' :: '#' :: ' ' :: []))) := by
      rintro ⟨h1, h2⟩
      subst h1
      apply ht
      cases rest with
      | nil => simp [mdDelim] at h2
      | cons r1 rest1 =>
        cases rest1 with
        | nil => simp [mdDelim] at h2
        | cons r2 rest2 =>
          cases rest2 with
          | nil => simp [mdDelim] at h2
          | cons r3 rest3 =>
            simp only [List.cons_append, List.take_cons, List.take_zero] at h2
            have e1 : r1 = '#' := by
              have := congrArg (fun l => l.headD ' ') h2
              simpa using this
            have e2 : r2 = '#' := by
              have := congrArg (fun l => (l.drop 1).headD ' ') h2
              simpa using this
            have e3 : r3 = ' ' := by
              have := congrArg (fun l => (l.drop 2).headD '#') h2
              simpa using this
            subst e1
            subst e2
            subst e3
            exact ⟨[], rest3, by simp [mdDelim]⟩
    have hshape : (c :: rest) ++ mdDelim ++ more =
        c :: (rest ++ mdDelim ++ more) := by simp
    rw [hshape, splitMdAux, if_neg hcond]
    have hrest : ¬ mdDelim <:+: rest := fun hi => ht (infix_cons_lift c hi)
    rw [ih hrest (cur ++ [c])]
    simp

theorem splitMdAux_mdJoin (s : List Char) (ss : List (List Char))
    (hs : ¬ mdDelim <:+: s) (hss : ∀ u ∈ ss, ¬ mdDelim <:+: u) :
    splitMdAux [] (mdJoin s ss) = mdPieces s ss := by
  induction ss generalizing s with
  | nil =>
    rw [mdJoin, splitMdAux_no s hs []]
    simp [mdPieces]
  | cons s2 ss2 ih =>
    rw [mdJoin, splitMdAux_delim s hs (mdJoin s2 ss2) []]
    rw [ih s2 (hss s2 (by simp)) (fun u hu => hss u (by simp [hu]))]
    simp [mdPieces]

theorem splitMd_mdJoin (intro : List Char) (secs : List (List Char))
    (h1 : ¬ (('#' :: '#' :: ' ' :: []) <+: intro))
    (h2 : ¬ mdDelim <:+: intro)
    (h3 : ∀ s ∈ secs, ¬ mdDelim <:+: s) :
    splitMd (mdJoin intro secs) = mdPieces intro secs := by
  cases secs with
  | nil =>
    rw [mdJoin, splitMd]
    have hguard : ¬ (intro.take 3 = ('#' :: '#' :: ' ' :: [])) := by
      intro h
      exact h1 (List.prefix_iff_eq_take.mpr h.symm)
    rw [if_neg hguard, splitMdAux_no intro h2 []]
    simp [mdPieces]
  | cons s ss =>
    rw [mdJoin, splitMd]
    have hguard : ¬ ((intro ++ mdDelim ++ mdJoin s ss).take 3 =
        ('#' :: '#' :: ' ' :: [])) := by
      intro h
      cases intro with
      | nil => simp [mdDelim] at h
      | cons a1 i1 =>
        cases i1 with
        | nil => simp [mdDelim] at h
        | cons a2 i2 =>
          cases i2 with
          | nil => simp [mdDelim] at h
          | cons a3 i3 =>
            simp only [List.cons_append, List.take_cons, List.take_zero] at h
            apply h1
            have e1 : a1 = '#' := by
              have := congrArg (fun l => l.headD ' ') h
              simpa using this
            have e2 : a2 = '#' := by
              have := congrArg (fun l => (l.drop 1).headD ' ') h
              simpa using this
            have e3 : a3 = ' ' := by
              have := congrArg (fun l => (l.drop 2).headD '#') h
              simpa using this
            subst e1
            subst e2
            subst e3
            exact ⟨i3, by simp⟩
    rw [if_neg hguard, splitMdAux_delim intro h2 (mdJoin s ss) [],
      splitMdAux_mdJoin s ss (h3 s (by simp)) (fun u hu => h3 u (by simp [hu]))]
    simp [mdPieces]

/-- C9: `formatMarkdown` returns the empty string on empty input; on a
document made of an intro plus `## `-introduced sections (with no stray
section delimiters inside them), it emits the processed intro piece followed
by, for each section in original order, an `<h4>` with the section's first
line and a `section-content` div with the processed remainder of the piece;
and on a document that begins with `## ` at the string start (the `/^## /m`
start anchor), the first split piece is empty, so the output is exactly the
`<h4>`/`section-content` emissions of every section in order. -/
theorem formatMarkdown_spec :
    formatMarkdown [] = [] ∧
      (∀ (intro : List Char) (secs : List (List Char)),
        ¬ (('#' :: '#' :: ' ' :: []) <+: intro) →
        ¬ mdDelim <:+: intro →
        (∀ s ∈ secs, ¬ mdDelim <:+: s) →
        formatMarkdown (mdJoin intro secs) =
          firstPartHtml ((mdPieces intro secs).headD []) ++
            (((mdPieces intro secs).drop 1).map sectionHtml).flatten) ∧
      ∀ (s0 : List Char) (secs : List (List Char)),
        ¬ mdDelim <:+: s0 →
        (∀ s ∈ secs, ¬ mdDelim <:+: s) →
        formatMarkdown (('#' :: '#' :: ' ' :: []) ++ mdJoin s0 secs) =
          ((mdPieces s0 secs).map sectionHtml).flatten := by
  refine ⟨?_, ?_, ?_⟩
  · simp [formatMarkdown]
  · intro intro secs h1 h2 h3
    by_cases hj : mdJoin intro secs = []
    · have hie : intro = [] ∧ secs = [] := by
        cases secs with
        | nil => exact ⟨hj, rfl⟩
        | cons s ss =>
          rw [mdJoin] at hj
          simp [mdDelim] at hj
      rw [hj, hie.1, hie.2]
      simp [formatMarkdown, mdPieces, firstPartHtml]
    · rw [formatMarkdown, if_neg hj,
        splitMd_mdJoin intro secs h1 h2 h3]
  · intro s0 secs hs0 hsecs
    have hne : ¬ (('#' :: '#' :: ' ' :: []) ++ mdJoin s0 secs = []) := by
      simp
    have hsplit : splitMd (('#' :: '#' :: ' ' :: []) ++ mdJoin s0 secs) =
        [] :: mdPieces s0 secs := by
      rw [splitMd]
      have htake : ((('#' :: '#' :: ' ' :: []) ++ mdJoin s0 secs).take 3) =
          ('#' :: '#' :: ' ' :: []) := rfl
      rw [if_pos htake]
      have hdrop : (('#' :: '#' :: ' ' :: []) ++ mdJoin s0 secs).drop 3 =
          mdJoin s0 secs := rfl
      rw [hdrop, splitMdAux_mdJoin s0 secs hs0 hsecs]
    rw [formatMarkdown, if_neg hne, hsplit]
    simp [firstPartHtml]

/-! ### Scholar details sidebar (script.js, `showScholarDetails`) -/

/-- Payload of a successful `GET /api/scholar/:id`. -/
structure ProfileData where
  profile_pic : Option (List Char)
  markdown_content : Option (List Char)
deriving DecidableEq

/-- The sidebar pieces `showScholarDetails` writes: the profile header built
before the fetch from data already at hand, and the `profile-content`
innerHTML written after the fetch settles. -/
structure SidebarView where
  header : List Char
  content : List Char
deriving DecidableEq

/-- The `profile-header` part of `basicProfileHtml` (name, institution with
the `'Unknown Institution'` fallback), rendered before the fetch. -/
def basicHeaderHtml (s : Scholar) : List Char :=
  ("<h3>").toList ++ s.name ++ ("</h3><div class=\"institution\">").toList ++
    (if s.institution = [] then ("Unknown Institution").toList
     else s.institution) ++ ("</div>").toList

/-- The error panel the catch block writes into `profile-content`
(template-literal indentation whitespace is normalised away). -/
def profileErrorHtml (msg : List Char) : List Char :=
  ("<div class=\"error-message\"><p>Failed to load scholar profile. Please try again later.</p><p class=\"error-details\">").toList ++
    msg ++ ("</p></div>").toList

/-- `showScholarDetails` from script.js, after the fetch settles: the basic
profile (header) is rendered immediately; then the fetch either resolves
with profile data (markdown content or the no-information fallback) or
rejects, in which case the catch block writes the error panel into
`profile-content`.  A non-ok response rejects via
`throw new Error('Failed to load scholar profile')`. -/
def showScholarDetails (s : Scholar)
    (fetchResult : Except (List Char) ProfileData) : SidebarView :=
  let header := basicHeaderHtml s
  match fetchResult with
  | Except.error msg => { header := header, content := profileErrorHtml msg }
  | Except.ok d =>
    { header := header
      content :=
        match d.markdown_content with
        | some md =>
          ("<div class=\"research-info\"><div class=\"research-text markdown-content\">").toList ++
            formatMarkdown md ++ ("</div></div>").toList
        | none =>
          ("<div class=\"research-info\"><div class=\"research-text\"><p>No detailed information available for this scholar.</p></div></div>").toList }

/-- C8: when the profile fetch rejects (or the response was non-ok, which
rejects with `'Failed to load scholar profile'`), the sidebar keeps the
basic header rendered before the fetch, and the profile content becomes an
`error-message` panel that contains the error's message. -/
theorem showScholarDetails_error_spec (s : Scholar) (msg : List Char) :
    (showScholarDetails s (Except.error msg)).header = basicHeaderHtml s ∧
      (∀ d : ProfileData,
        (showScholarDetails s (Except.error msg)).header =
          (showScholarDetails s (Except.ok d)).header) ∧
      (showScholarDetails s (Except.error msg)).content = profileErrorHtml msg ∧
      (∃ pre post : List Char,
        (showScholarDetails s (Except.error msg)).content =
            pre ++ msg ++ post ∧
          ("error-message").toList <:+: pre) := by
  refine ⟨rfl, fun d => rfl, rfl, ?_⟩
  refine ⟨("<div class=\"error-message\"><p>Failed to load scholar profile. Please try again later.</p><p class=\"error-details\">").toList,
    ("</p></div>").toList, rfl, ?_⟩
  exact ⟨("<div class=\"").toList,
    ("\"><p>Failed to load scholar profile. Please try again later.</p><p class=\"error-details\">").toList,
    by decide⟩

/-! ### Vicinity scholars (script.js, `showVicinityScholars`)

JS sorts by `Math.sqrt(dx*dx + dy*dy)` ascending; since the square root is
strictly monotone on non-negative reals, comparing and sorting by the
squared distance gives exactly the same order, so distances are modelled by
their squares in `ℚ`. -/

/-- Squared Euclidean distance between two scholars' UMAP coordinates. -/
def sqDist (a b : Scholar) : ℚ :=
  (a.umap.1 - b.umap.1) * (a.umap.1 - b.umap.1) +
    (a.umap.2 - b.umap.2) * (a.umap.2 - b.umap.2)

instance : IsTotal (Scholar × ℚ) (fun u v => u.2 ≤ v.2) :=
  ⟨fun a b => le_total a.2 b.2⟩

instance : IsTrans (Scholar × ℚ) (fun u v => u.2 ≤ v.2) :=
  ⟨fun _ _ _ h1 h2 => le_trans h1 h2⟩

/-- `showVicinityScholars` from script.js: find the selected scholar by id
(`none` when absent), exclude it, compute the (squared) distance to every
other scholar, sort ascending, and keep the closest 10. -/
def showVicinityScholars (scholarId : List Char)
    (scholars : List Scholar) : Option (List Scholar) :=
  match scholars.find? (fun s => s.id = scholarId) with
  | none => none
  | some selectedScholar =>
    let scholarsWithDistance :=
      (scholars.filter (fun s => ¬ s.id = selectedScholar.id)).map
        (fun scholar => (scholar, sqDist scholar selectedScholar))
    let sorted :=
      List.insertionSort (fun u v : Scholar × ℚ => u.2 ≤ v.2)
        scholarsWithDistance
    some ((sorted.take 10).map (fun p => p.1))

/-- C10: when the selected id is found, the vicinity computation returns at
most 10 scholars, never the selected scholar itself, in non-decreasing
distance order, and every returned scholar is at least as close as every
excluded other scholar. -/
theorem showVicinityScholars_spec (scholarId : List Char)
    (scholars : List Scholar) (sel : Scholar)
    (hfind : scholars.find? (fun s => s.id = scholarId) = some sel) :
    ∃ res, showVicinityScholars scholarId scholars = some res ∧
      res.length ≤ 10 ∧
      (∀ s ∈ res, s.id ≠ sel.id) ∧
      List.Sorted (fun a b : ℚ => a ≤ b) (res.map (fun s => sqDist s sel)) ∧
      ∀ s ∈ res, ∀ t ∈ scholars, t.id ≠ sel.id → t ∉ res →
        sqDist s sel ≤ sqDist t sel := by
  unfold showVicinityScholars
  rw [hfind]
  set wd := (scholars.filter (fun s => ¬ s.id = sel.id)).map
    (fun scholar => (scholar, sqDist scholar sel)) with hwd
  set sorted := List.insertionSort (fun u v : Scholar × ℚ => u.2 ≤ v.2) wd
    with hsorted
  set res := (sorted.take 10).map (fun p : Scholar × ℚ => p.1) with hres
  have hperm : List.Perm sorted wd := List.perm_insertionSort _ _
  have hsort : List.Pairwise (fun u v : Scholar × ℚ => u.2 ≤ v.2) sorted :=
    List.sorted_insertionSort _ _
  have hmemwd : ∀ p ∈ sorted, p.1.id ≠ sel.id ∧ p.2 = sqDist p.1 sel := by
    intro p hp
    have h1 : p ∈ wd := hperm.mem_iff.mp hp
    rw [hwd] at h1
    obtain ⟨s0, hs0, he⟩ := List.mem_map.mp h1
    have hf := List.mem_filter.mp hs0
    rw [← he]
    refine ⟨?_, rfl⟩
    have := of_decide_eq_true hf.2
    exact this
  have hmemres : ∀ p ∈ sorted.take 10, p.1.id ≠ sel.id ∧ p.2 = sqDist p.1 sel :=
    fun p hp => hmemwd p (List.mem_of_mem_take hp)
  refine ⟨res, rfl, ?_, ?_, ?_, ?_⟩
  · rw [hres]
    simp only [List.length_map]
    exact le_trans (List.length_take_le 10 sorted) (le_refl _)
  · intro s hs
    rw [hres] at hs
    obtain ⟨p, hp, he⟩ := List.mem_map.mp hs
    rw [← he]
    exact (hmemres p hp).1
  · rw [hres, List.map_map]
    have hpair10 : List.Pairwise (fun u v : Scholar × ℚ => u.2 ≤ v.2)
        (sorted.take 10) := hsort.sublist (List.take_sublist 10 sorted)
    rw [List.Sorted, List.pairwise_map]
    apply hpair10.imp_of_mem
    intro u v hu hv h1
    have eu := (hmemres u hu).2
    have ev := (hmemres v hv).2
    simp only [Function.comp]
    rw [← eu, ← ev]
    exact h1
  · intro s hs t ht htne htout
    obtain ⟨p, hp, hep⟩ := List.mem_map.mp (hres ▸ hs)
    have htwd : (t, sqDist t sel) ∈ wd := by
      rw [hwd]
      apply List.mem_map.mpr
      refine ⟨t, List.mem_filter.mpr ⟨ht, ?_⟩, rfl⟩
      exact decide_eq_true htne
    have htsorted : (t, sqDist t sel) ∈ sorted := hperm.mem_iff.mpr htwd
    have htdrop : (t, sqDist t sel) ∈ sorted.drop 10 := by
      have hsplit : sorted = sorted.take 10 ++ sorted.drop 10 :=
        (List.take_append_drop 10 sorted).symm
      rcases List.mem_append.mp (by rw [← hsplit]; exact htsorted) with h | h
      · exfalso
        apply htout
        rw [hres]
        exact List.mem_map.mpr ⟨(t, sqDist t sel), h, rfl⟩
      · exact h
    have hpairsplit := List.pairwise_append.mp
      (by rw [List.take_append_drop 10 sorted]; exact hsort)
    have hle := hpairsplit.2.2 p hp (t, sqDist t sel) htdrop
    have ep := (hmemres p hp).2
    rw [← hep, ← ep]
    exact hle

/-! ### Concrete witnesses -/

/-- A sample scholar record for witnesses. -/
def sampleScholarA : Scholar :=
  { id := 'a' :: '1' :: []
    name := 'A' :: 'n' :: 'n' :: []
    institution := []
    country := []
    umap := (0, 0)
    cluster_id := 0 }

/-- A second sample scholar record for witnesses. -/
def sampleScholarB : Scholar :=
  { id := 'b' :: '2' :: []
    name := 'B' :: 'o' :: 'b' :: []
    institution := []
    country := []
    umap := (3, 4)
    cluster_id := 1 }

/-- A sample raw record for witnesses. -/
def sampleRawScholar : RawScholar :=
  { id := 'x' :: []
    name := 'N' :: []
    institution := []
    country := []
    umap_projection := some (1, 2)
    cluster := 0 }

theorem fuzzySearch_spec_witness :
    List.Perm (fuzzySearch ('a' :: 'n' :: []) [sampleScholarA, sampleScholarB])
        ([sampleScholarA, sampleScholarB].filter
          (fun s => 0 < scholarScore (toLowerCase ('a' :: 'n' :: [])) s)) ∧
      List.Sorted (fun a b : ℚ => b ≤ a)
        ((fuzzySearch ('a' :: 'n' :: []) [sampleScholarA, sampleScholarB]).map
          (scholarScore (toLowerCase ('a' :: 'n' :: [])))) ∧
      ∀ i j :
          Fin (fuzzySearch ('a' :: 'n' :: [])
            [sampleScholarA, sampleScholarB]).length,
        toLowerCase
            ((fuzzySearch ('a' :: 'n' :: [])
              [sampleScholarA, sampleScholarB]).get i).name =
          toLowerCase ('a' :: 'n' :: []) →
        toLowerCase
            ((fuzzySearch ('a' :: 'n' :: [])
              [sampleScholarA, sampleScholarB]).get j).name ≠
          toLowerCase ('a' :: 'n' :: []) →
        i < j :=
  fuzzySearch_spec ('a' :: 'n' :: []) [sampleScholarA, sampleScholarB]
    (by decide)

theorem mouseupSelection_spec_witness :
    (10 < (20 : ℚ) ∧ 10 < (20 : ℚ) →
      ∀ n ∈ [ScholarNode.mk sampleScholarA 5 5,
          ScholarNode.mk sampleScholarB 100 100],
        (n.scholar ∈
            (mouseupSelection 0 0 20 20
              [ScholarNode.mk sampleScholarA 5 5,
                ScholarNode.mk sampleScholarB 100 100]).getD [] ↔
          0 ≤ n.cx ∧ n.cx ≤ 0 + 20 ∧ 0 ≤ n.cy ∧ n.cy ≤ 0 + 20)) ∧
      ((20 : ℚ) ≤ 10 ∨ (20 : ℚ) ≤ 10 →
        mouseupSelection 0 0 20 20
            [ScholarNode.mk sampleScholarA 5 5,
              ScholarNode.mk sampleScholarB 100 100] = none) :=
  mouseupSelection_spec 0 0 20 20
    [ScholarNode.mk sampleScholarA 5 5, ScholarNode.mk sampleScholarB 100 100]
    (by decide)

theorem wheelUpdate_spec_witness :
    ((0.2 : ℚ) ≤ (wheelUpdate (-1) 1 10 20 300 400).1 ∧
        (wheelUpdate (-1) 1 10 20 300 400).1 ≤ 8) ∧
      (wheelUpdate (-1) 1 10 20 300 400).2.1 +
          ((300 - 10) / 1) * (wheelUpdate (-1) 1 10 20 300 400).1 = 300 ∧
      (wheelUpdate (-1) 1 10 20 300 400).2.2 +
          ((400 - 20) / 1) * (wheelUpdate (-1) 1 10 20 300 400).1 = 400 :=
  wheelUpdate_spec (-1) 1 10 20 300 400 (by norm_num)

theorem scaleX_spec_witness :
    scaleX (listMin ([sampleScholarA, sampleScholarB].map (fun s => s.umap.1)))
        (listMax ([sampleScholarA, sampleScholarB].map (fun s => s.umap.1)))
        (listMin ([sampleScholarA, sampleScholarB].map (fun s => s.umap.1))) =
          50 ∧
      scaleX (listMin ([sampleScholarA, sampleScholarB].map (fun s => s.umap.1)))
        (listMax ([sampleScholarA, sampleScholarB].map (fun s => s.umap.1)))
        (listMax ([sampleScholarA, sampleScholarB].map (fun s => s.umap.1))) =
          950 ∧
      (∃ A B : ℚ, A ≠ 0 ∧ ∀ t : ℚ,
        scaleX (listMin ([sampleScholarA, sampleScholarB].map (fun s => s.umap.1)))
          (listMax ([sampleScholarA, sampleScholarB].map (fun s => s.umap.1)))
          t = A * t + B) ∧
      ∀ s ∈ [sampleScholarA, sampleScholarB],
        50 ≤ scaleX
            (listMin ([sampleScholarA, sampleScholarB].map (fun s => s.umap.1)))
            (listMax ([sampleScholarA, sampleScholarB].map (fun s => s.umap.1)))
            s.umap.1 ∧
          scaleX
            (listMin ([sampleScholarA, sampleScholarB].map (fun s => s.umap.1)))
            (listMax ([sampleScholarA, sampleScholarB].map (fun s => s.umap.1)))
            s.umap.1 ≤ 950 :=
  scaleX_spec [sampleScholarA, sampleScholarB] sampleScholarA (by decide)
    sampleScholarB (by decide) (by decide)

theorem validScholars_spec_witness :
    convertScholar sampleRawScholar ∈ validScholars [sampleRawScholar] ↔
      sampleRawScholar.id ≠ [] ∧ sampleRawScholar.name ≠ [] ∧
        ∃ p : ℚ × ℚ, sampleRawScholar.umap_projection = some p :=
  validScholars_spec [sampleRawScholar] sampleRawScholar (by decide)

theorem loadScholars_error_spec_witness :
    ∃ msg, loadScholars none = LoadResult.errorMessage msg ∧
      ∀ valid, loadScholars none ≠ LoadResult.success valid :=
  loadScholars_error_spec none (Or.inl rfl)

theorem formatMarkdown_spec_witness :
    (formatMarkdown
        (mdJoin ('h' :: 'i' :: [])
          [('T' :: 'i' :: 't' :: 'l' :: 'e' :: '\n' :: 'b' :: 'o' :: 'd' :: 'y' :: [])]) =
      firstPartHtml
          ((mdPieces ('h' :: 'i' :: [])
            [('T' :: 'i' :: 't' :: 'l' :: 'e' :: '\n' :: 'b' :: 'o' :: 'd' :: 'y' :: [])]).headD
            []) ++
        (((mdPieces ('h' :: 'i' :: [])
            [('T' :: 'i' :: 't' :: 'l' :: 'e' :: '\n' :: 'b' :: 'o' :: 'd' :: 'y' :: [])]).drop
            1).map sectionHtml).flatten) ∧
      formatMarkdown
          (('#' :: '#' :: ' ' :: []) ++
            mdJoin ('T' :: '2' :: '\n' :: 'b' :: '2' :: [])
              [('T' :: '3' :: '\n' :: 'b' :: '3' :: [])]) =
        ((mdPieces ('T' :: '2' :: '\n' :: 'b' :: '2' :: [])
            [('T' :: '3' :: '\n' :: 'b' :: '3' :: [])]).map sectionHtml).flatten :=
  ⟨formatMarkdown_spec.2.1 ('h' :: 'i' :: [])
      [('T' :: 'i' :: 't' :: 'l' :: 'e' :: '\n' :: 'b' :: 'o' :: 'd' :: 'y' :: [])]
      (by decide) (by decide) (by decide),
    formatMarkdown_spec.2.2 ('T' :: '2' :: '\n' :: 'b' :: '2' :: [])
      [('T' :: '3' :: '\n' :: 'b' :: '3' :: [])] (by decide) (by decide)⟩

theorem showVicinityScholars_spec_witness :
    ∃ res,
      showVicinityScholars ('a' :: '1' :: []) [sampleScholarA, sampleScholarB] =
          some res ∧
        res.length ≤ 10 ∧
        (∀ s ∈ res, s.id ≠ sampleScholarA.id) ∧
        List.Sorted (fun a b : ℚ => a ≤ b)
          (res.map (fun s => sqDist s sampleScholarA)) ∧
        ∀ s ∈ res, ∀ t ∈ [sampleScholarA, sampleScholarB],
          t.id ≠ sampleScholarA.id → t ∉ res →
          sqDist s sampleScholarA ≤ sqDist t sampleScholarA :=
  showVicinityScholars_spec ('a' :: '1' :: []) [sampleScholarA, sampleScholarB]
    sampleScholarA (by decide)

end ScholarBoard
